import Mathlib

/-!
Verification development for the Hypermind live-session audio pipeline.

The definitions below are a shallow embedding of the audio code in
src/components/ChatInterface.tsx (the LiveSession callbacks `onopen`,
`onaudioprocess`, `onmessage`) and src/lib/utils.ts (`uint8ArrayToBase64`,
`base64ToUint8Array`, `decodeAudioData`).  JavaScript numbers are modelled
as rationals (every finite float64 is rational; the only operations used
by the codec are exact in float64), strings as lists of character codes,
byte arrays as lists of naturals below 256, and the Web Audio scheduling
state as explicit records.
-/

namespace Hypermind

/-! ## FrameCodec: PCM16 conversion

`jsToInt16` models the JavaScript `Int16Array` element coercion (ToInt16):
truncate toward zero, then wrap modulo 2^16 into the signed 16-bit range.
`pcm16Bytes` models the capture path in `onaudioprocess`
(ChatInterface.tsx lines 1072-1078): `int16[i] = inputData[i] * 32768`
followed by viewing the Int16Array buffer as little-endian bytes.
-/

/-- Truncation toward zero of a rational, as JavaScript ToInteger does. -/
def ratTrunc (x : ℚ) : ℤ := if 0 ≤ x then ⌊x⌋ else ⌈x⌉

/-- Wrap an integer into the signed 16-bit range, as ToInt16 does. -/
def toInt16 (n : ℤ) : ℤ := (n + 32768) % 65536 - 32768

/-- The stored value of `int16[i] = x * 32768` for a float sample `x`. -/
def jsToInt16 (x : ℚ) : ℤ := toInt16 (ratTrunc (x * 32768))

/-- The unsigned 16-bit representation backing a signed 16-bit value. -/
def uint16OfInt16 (k : ℤ) : ℕ := (k % 65536).toNat

/-- Little-endian byte pair of a signed 16-bit value, as `Uint8Array(int16.buffer)`. -/
def int16ToBytes (k : ℤ) : List ℕ := [uint16OfInt16 k % 256, uint16OfInt16 k / 256]

/-- The byte frame produced from a float sample block by the PCM16 conversion
in `onaudioprocess` (ChatInterface.tsx lines 1072-1078). -/
def pcm16Bytes (block : List ℚ) : List ℕ :=
  (block.map fun x => int16ToBytes (jsToInt16 x)).flatten

/-- Reinterpret a byte list as little-endian signed 16-bit values, as
`new Int16Array(data.buffer)` does (a trailing odd byte cannot occur on the
paths where this is used: the caller checks evenness first). -/
def bytesToInt16 : List ℕ → List ℤ
  | b0 :: b1 :: rest => toInt16 ((b0 : ℤ) + 256 * (b1 : ℤ)) :: bytesToInt16 rest
  | _ => []

/-- Model of a decoded Web Audio `AudioBuffer`: sample rate, frame count and
per-channel sample data. -/
structure JsAudioBuffer where
  sampleRate : ℚ
  frameCount : ℕ
  channels : List (List ℚ)
deriving DecidableEq, Repr

/-- `duration` of an `AudioBuffer`: frame count over sample rate. -/
def JsAudioBuffer.duration (b : JsAudioBuffer) : ℚ := (b.frameCount : ℚ) / b.sampleRate

/-- Model of `decodeAudioData` (src/lib/utils.ts lines 80-97) together with
the browser behaviour of the APIs it calls:
* `new Int16Array(data.buffer)` throws a RangeError when the byte length is
  odd (modelled as `none`);
* `frameCount = dataInt16.length / numChannels` is a JavaScript fractional
  division whose WebIDL conversion at `createBuffer` truncates, hence the
  natural-number division here;
* `ctx.createBuffer` throws NotSupportedError when the channel count is
  outside the mandatory range 1..32, the frame count is 0, or the sample
  rate is outside 8000..96000 (modelled as `none`);
* the copy loop runs `i` up to the fractional frame count, but writes past
  the channel-data length are silently dropped by the typed array, so only
  the first `frameCount` samples of each channel remain. -/
def decodeAudioData (data : List ℕ) (sampleRate : ℚ) (numChannels : ℕ) :
    Option JsAudioBuffer :=
  if data.length % 2 ≠ 0 then none
  else
    let dataInt16 := bytesToInt16 data
    let frameCount := dataInt16.length / numChannels
    if numChannels = 0 ∨ 32 < numChannels ∨ frameCount = 0 ∨
        sampleRate < 8000 ∨ 96000 < sampleRate then none
    else some ⟨sampleRate, frameCount,
      (List.range numChannels).map fun ch =>
        (List.range frameCount).map fun i =>
          ((dataInt16.getD (i * numChannels + ch) 0 : ℚ) / 32768)⟩

/-- The little-endian signed 16-bit value at 16-bit position `n` of a byte
sequence (used to state what decoding returns, independently of the
pairwise recursion of `bytesToInt16`). -/
def leInt16At (data : List ℕ) (n : ℕ) : ℤ :=
  toInt16 ((data.getD (2 * n) 0 : ℤ) + 256 * (data.getD (2 * n + 1) 0 : ℤ))

/-! ### Arithmetic facts about the 16-bit conversion -/

lemma toInt16_eq_self {k : ℤ} (h1 : -32768 ≤ k) (h2 : k ≤ 32767) : toInt16 k = k := by
  unfold toInt16; omega

lemma toInt16_range (n : ℤ) : -32768 ≤ toInt16 n ∧ toInt16 n ≤ 32767 := by
  unfold toInt16; omega

lemma toInt16_emod (n : ℤ) : toInt16 (n % 65536) = toInt16 n := by
  unfold toInt16; omega

lemma ratTrunc_intCast (k : ℤ) : ratTrunc (k : ℚ) = k := by
  unfold ratTrunc
  split <;> simp

lemma ratTrunc_bounds {x : ℚ} (h1 : -32768 ≤ x) (h2 : x < 32768) :
    -32768 ≤ ratTrunc x ∧ ratTrunc x ≤ 32767 ∧ |(ratTrunc x : ℚ) - x| < 1 := by
  unfold ratTrunc
  split
  case isTrue h =>
    refine ⟨?_, ?_, ?_⟩
    · have : (0:ℤ) ≤ ⌊x⌋ := Int.floor_nonneg.mpr h
      omega
    · have : ⌊x⌋ < 32768 := by
        rw [Int.floor_lt]
        exact_mod_cast h2
      omega
    · rw [abs_sub_lt_iff]
      constructor
      · have := Int.floor_le x
        linarith
      · have := Int.sub_one_lt_floor x
        linarith
  case isFalse h =>
    push_neg at h
    have hc1 : x ≤ (⌈x⌉ : ℚ) := Int.le_ceil x
    refine ⟨?_, ?_, ?_⟩
    · have : ((-32768 : ℤ) : ℚ) ≤ (⌈x⌉ : ℚ) := by push_cast; linarith
      exact_mod_cast this
    · have : ⌈x⌉ ≤ (0 : ℤ) := Int.ceil_le.mpr (by exact_mod_cast h.le)
      omega
    · rw [abs_sub_lt_iff]
      have h2c : (⌈x⌉ : ℚ) < x + 1 := Int.ceil_lt_add_one x
      constructor
      · linarith
      · linarith

/-- Encoding a sample that is exactly a signed 16-bit value over 32768
stores exactly that value. -/
lemma jsToInt16_exact {k : ℤ} (h1 : -32768 ≤ k) (h2 : k ≤ 32767) :
    jsToInt16 ((k : ℚ) / 32768) = k := by
  unfold jsToInt16
  have hx : ((k : ℚ) / 32768) * 32768 = (k : ℚ) := by
    field_simp
  rw [hx, ratTrunc_intCast, toInt16_eq_self h1 h2]

/-- For samples in the interval from -1 inclusive to 1 exclusive, the stored
16-bit value is within range (no wraparound) and within one quantization
step of the scaled sample. -/
lemma jsToInt16_close {x : ℚ} (h1 : -1 ≤ x) (h2 : x < 1) :
    jsToInt16 x = ratTrunc (x * 32768) ∧ |(jsToInt16 x : ℚ) - x * 32768| < 1 := by
  have hb1 : -32768 ≤ x * 32768 := by linarith
  have hb2 : x * 32768 < 32768 := by linarith
  obtain ⟨hlo, hhi, habs⟩ := ratTrunc_bounds hb1 hb2
  have heq : jsToInt16 x = ratTrunc (x * 32768) := by
    unfold jsToInt16
    exact toInt16_eq_self hlo hhi
  exact ⟨heq, by rw [heq]; exact habs⟩

/-- Reading back the little-endian byte pair of an in-range 16-bit value
recovers it. -/
lemma bytesToInt16_int16ToBytes {k : ℤ} (h1 : -32768 ≤ k) (h2 : k ≤ 32767)
    (rest : List ℕ) :
    bytesToInt16 (int16ToBytes k ++ rest) = k :: bytesToInt16 rest := by
  have hmod : 0 ≤ k % 65536 := Int.emod_nonneg k (by norm_num)
  have harith : (((k % 65536).toNat % 256 : ℕ) : ℤ) +
      256 * (((k % 65536).toNat / 256 : ℕ) : ℤ) = k % 65536 := by
    push_cast
    omega
  simp only [int16ToBytes, uint16OfInt16, List.cons_append, List.nil_append, bytesToInt16]
  rw [harith, toInt16_emod, toInt16_eq_self h1 h2]
  rfl

/-- Decoding the PCM16 byte frame of a block recovers the stored 16-bit
values of the samples. -/
lemma bytesToInt16_pcm16 : ∀ block : List ℚ,
    bytesToInt16 (pcm16Bytes block) = block.map jsToInt16
  | [] => rfl
  | x :: rest => by
    have hr : -32768 ≤ jsToInt16 x ∧ jsToInt16 x ≤ 32767 := toInt16_range _
    show bytesToInt16 (int16ToBytes (jsToInt16 x) ++ pcm16Bytes rest) = _
    rw [bytesToInt16_int16ToBytes hr.1 hr.2, bytesToInt16_pcm16 rest]
    rfl

lemma pcm16Bytes_length : ∀ block : List ℚ, (pcm16Bytes block).length = 2 * block.length
  | [] => rfl
  | _ :: rest => by
    show (int16ToBytes _ ++ pcm16Bytes rest).length = _
    simp only [List.length_append, pcm16Bytes_length rest, int16ToBytes]
    simp
    ring

lemma range_map_getD (l : List ℤ) (g : ℤ → ℚ) :
    (List.range l.length).map (fun i => g (l.getD i 0)) = l.map g := by
  apply List.ext_getElem
  · simp
  · intro i h1 h2
    simp only [List.getElem_map, List.getElem_range]
    rw [List.getD_eq_getElem l 0 (by simpa using h2)]

/-- What decoding a mono PCM16 frame produced by the capture conversion
returns: one channel holding each stored 16-bit value divided by 32768. -/
lemma decode_pcm16 (block : List ℚ) (hne : block ≠ []) :
    decodeAudioData (pcm16Bytes block) 24000 1 =
      some ⟨24000, block.length, [block.map fun x => ((jsToInt16 x : ℚ) / 32768)]⟩ := by
  have hlen := pcm16Bytes_length block
  have hlen2 : (bytesToInt16 (pcm16Bytes block)).length = block.length := by
    rw [bytesToInt16_pcm16]
    exact List.length_map _ _
  have hpos : 0 < block.length := List.length_pos.mpr hne
  have hch : (List.range block.length).map
      (fun i => (((bytesToInt16 (pcm16Bytes block)).getD (i * 1 + 0) 0 : ℚ) / 32768))
      = block.map fun x => ((jsToInt16 x : ℚ) / 32768) := by
    have hsimp : ∀ i : ℕ, i * 1 + 0 = i := by intro i; omega
    simp only [hsimp]
    rw [← hlen2, range_map_getD (bytesToInt16 (pcm16Bytes block)) (fun k => (k : ℚ) / 32768)]
    rw [bytesToInt16_pcm16, List.map_map]
    rfl
  unfold decodeAudioData
  simp only [hlen, hlen2, Nat.mul_mod_right, Nat.div_one]
  rw [if_neg (by omega), if_neg (by
        push_neg
        exact ⟨by omega, by omega, by omega, by norm_num, by norm_num⟩)]
  have hr1 : List.range 1 = [0] := rfl
  rw [hr1]
  simp only [List.map_cons, List.map_nil]
  rw [hch]

/-! ## Claim C3: PCM16 round-trip law -/

/-- Claim C3 (amended): for every nonempty sample block whose entries are
exactly representable as signed 16-bit values scaled by 1/32768, decoding
the encoded frame returns the block exactly; and for every nonempty block
whose entries lie in the half-open interval from -1 inclusive to 1
exclusive, the round-trip error of every sample is below the 16-bit
quantization step 1/32768.  (The claim as frozen also covers the in-range
sample 1, where the unguarded conversion wraps to -1; see the
counterexample.) -/
theorem C3_pcm16_roundtrip :
    (∀ block : List ℚ, block ≠ [] →
        (∀ s ∈ block, ∃ k : ℤ, -32768 ≤ k ∧ k ≤ 32767 ∧ s = (k : ℚ) / 32768) →
        decodeAudioData (pcm16Bytes block) 24000 1 = some ⟨24000, block.length, [block]⟩)
    ∧ (∀ block : List ℚ, block ≠ [] → (∀ s ∈ block, -1 ≤ s ∧ s < 1) →
        ∃ ys : List ℚ,
          decodeAudioData (pcm16Bytes block) 24000 1 = some ⟨24000, block.length, [ys]⟩
          ∧ ys.length = block.length
          ∧ ∀ i, i < block.length → |ys.getD i 0 - block.getD i 0| < 1 / 32768) := by
  constructor
  · intro block hne hrep
    rw [decode_pcm16 block hne]
    have hmap : block.map (fun x => ((jsToInt16 x : ℚ) / 32768)) = block := by
      have := List.map_congr_left (f := fun x => ((jsToInt16 x : ℚ) / 32768)) (g := id)
        (l := block) ?_
      · simpa using this
      · intro s hs
        obtain ⟨k, hk1, hk2, hk3⟩ := hrep s hs
        simp only [id_eq, hk3, jsToInt16_exact hk1 hk2]
    rw [hmap]
  · intro block hne hin
    refine ⟨block.map (fun x => ((jsToInt16 x : ℚ) / 32768)), decode_pcm16 block hne,
      List.length_map _ _, ?_⟩
    intro i hi
    have hmem : block.getD i 0 ∈ block := by
      rw [List.getD_eq_getElem _ _ hi]
      exact List.getElem_mem _
    obtain ⟨h1, h2⟩ := hin _ hmem
    obtain ⟨_, habs⟩ := jsToInt16_close h1 h2
    set x := block.getD i 0 with hx
    have hgd : (block.map (fun x => ((jsToInt16 x : ℚ) / 32768))).getD i 0
        = (jsToInt16 x : ℚ) / 32768 := by
      rw [List.getD_eq_getElem _ _ (by simpa using hi), List.getElem_map]
      rw [hx, List.getD_eq_getElem _ _ hi]
    rw [hgd]
    have hdiff : (jsToInt16 x : ℚ) / 32768 - x = ((jsToInt16 x : ℚ) - x * 32768) / 32768 := by
      ring
    rw [hdiff, abs_div]
    have h32 : |(32768 : ℚ)| = 32768 := by norm_num
    rw [h32]
    gcongr

/-- Claim C3 counterexample: the sample 1 is within the encode contract
interval from -1 to 1, yet the unguarded conversion wraps it to -32768 and
the round trip returns -1, an error of 2, far above the quantization
step. -/
theorem C3_pcm16_roundtrip_counterexample :
    decodeAudioData (pcm16Bytes [1]) 24000 1 = some ⟨24000, 1, [[-1]]⟩
    ∧ (-1 : ℚ) ≤ 1 ∧ (1 : ℚ) ≤ 1
    ∧ 1 / 32768 < |(-1 : ℚ) - 1| := by
  refine ⟨?_, by norm_num, le_refl 1, by rw [abs_sub_comm]; norm_num⟩
  have h : pcm16Bytes [1] = [0, 128] := by
    simp [pcm16Bytes, int16ToBytes, uint16OfInt16, jsToInt16, ratTrunc, toInt16]
  rw [h]
  simp [decodeAudioData, bytesToInt16, toInt16, List.range_succ]
  norm_num

/-- Witness for C3 at the representable sample 1/2 = 16384/32768. -/
theorem C3_pcm16_roundtrip_witness :
    ([(1 : ℚ)/2] ≠ []) ∧
    decodeAudioData (pcm16Bytes [(1 : ℚ)/2]) 24000 1 = some ⟨24000, 1, [[(1 : ℚ)/2]]⟩ := by
  refine ⟨by simp, ?_⟩
  have : ([(1 : ℚ)/2] : List ℚ).length = 1 := rfl
  rw [← this]
  exact C3_pcm16_roundtrip.1 [(1 : ℚ)/2] (by simp)
    (fun s hs => ⟨16384, by norm_num, by norm_num, by
      simp at hs
      rw [hs]
      norm_num⟩)

/-! ## Claim C4: decodeAudioData failure condition -/

lemma bytesToInt16_length : ∀ data : List ℕ, (bytesToInt16 data).length = data.length / 2
  | [] => rfl
  | [x] => by
    have h : bytesToInt16 [x] = [] := rfl
    simp [h]
  | _ :: _ :: rest => by
    show (bytesToInt16 rest).length + 1 = _
    rw [bytesToInt16_length rest]
    simp only [List.length_cons]
    omega

lemma bytesToInt16_getD : ∀ (data : List ℕ) (n : ℕ), data.length % 2 = 0 →
    (bytesToInt16 data).getD n 0 = leInt16At data n
  | [], n, _ => by
    have h : bytesToInt16 ([] : List ℕ) = [] := rfl
    simp [h, leInt16At, toInt16]
  | [_], _, h => by simp at h
  | b0 :: b1 :: rest, 0, _ => by
    simp [bytesToInt16, leInt16At]
  | b0 :: b1 :: rest, n + 1, h => by
    have h2 : rest.length % 2 = 0 := by
      simp only [List.length_cons] at h
      omega
    show (bytesToInt16 rest).getD n 0 = _
    rw [bytesToInt16_getD rest n h2]
    have e1 : (b0 :: b1 :: rest).getD (2 * (n + 1)) 0 = rest.getD (2 * n) 0 := by
      have e : 2 * (n + 1) = 2 * n + 1 + 1 := by ring
      rw [e]
      rfl
    have e2 : (b0 :: b1 :: rest).getD (2 * (n + 1) + 1) 0 = rest.getD (2 * n + 1) 0 := by
      have e : 2 * (n + 1) + 1 = (2 * n + 1) + 1 + 1 := by ring
      rw [e]
      rfl
    unfold leInt16At
    rw [e1, e2]

lemma getD_map_range {α : Type} (f : ℕ → α) {n i : ℕ} (h : i < n) (d : α) :
    ((List.range n).map f).getD i d = f i := by
  rw [List.getD_eq_getElem _ _ (by simpa using h)]
  simp

/-- Claim C4 (amended): at the sample rate used by the code (24000),
decoding fails exactly when the byte length is odd, the channel count is
outside the supported range 1..32, or there are fewer bytes than one full
frame (2 × channelCount); in particular a byte length that is even but not
a multiple of 2 × channelCount does NOT fail — the fractional frame count
is truncated.  On success the result has channelCount channels of
byteLength / (2 × channelCount) samples, channel j sample i being the
little-endian signed 16-bit value at interleaved position
i × channelCount + j divided by 32768. -/
theorem C4_decode_failure : ∀ (data : List ℕ) (ch : ℕ),
    (decodeAudioData data 24000 ch = none ↔
      data.length % 2 ≠ 0 ∨ ch = 0 ∨ 32 < ch ∨ data.length < 2 * ch)
    ∧ ∀ buf, decodeAudioData data 24000 ch = some buf →
        buf.sampleRate = 24000
        ∧ buf.frameCount = data.length / (2 * ch)
        ∧ buf.channels.length = ch
        ∧ ∀ j, j < ch → ∀ i, i < buf.frameCount →
            (buf.channels.getD j []).getD i 0 = (leInt16At data (i * ch + j) : ℚ) / 32768 := by
  intro data ch
  by_cases hodd : data.length % 2 = 0
  case neg =>
    constructor
    · unfold decodeAudioData
      rw [if_pos (by omega)]
      simp only [true_iff]
      exact Or.inl hodd
    · intro buf hbuf
      unfold decodeAudioData at hbuf
      rw [if_pos (by omega)] at hbuf
      exact absurd hbuf (by simp)
  case pos =>
    have hlen := bytesToInt16_length data
    by_cases hch0 : ch = 0
    case pos =>
      constructor
      · unfold decodeAudioData
        rw [if_neg (by omega), if_pos (by left; exact hch0)]
        simp only [true_iff]
        exact Or.inr (Or.inl hch0)
      · intro buf hbuf
        unfold decodeAudioData at hbuf
        rw [if_neg (by omega), if_pos (by left; exact hch0)] at hbuf
        exact absurd hbuf (by simp)
    case neg =>
      have hchpos : 0 < ch := Nat.pos_of_ne_zero hch0
      have hfc : (bytesToInt16 data).length / ch = data.length / (2 * ch) := by
        rw [hlen, Nat.div_div_eq_div_mul]
      have hfc0 : ((bytesToInt16 data).length / ch = 0) ↔ data.length < 2 * ch := by
        rw [hlen, Nat.div_eq_zero_iff hchpos]
        omega
      by_cases hg : 32 < ch ∨ data.length < 2 * ch
      case pos =>
        constructor
        · unfold decodeAudioData
          rw [if_neg (by omega), if_pos (by
            rcases hg with hg | hg
            · right; left; exact hg
            · right; right; left; exact hfc0.mpr hg)]
          simp only [true_iff]
          rcases hg with hg | hg
          · exact Or.inr (Or.inr (Or.inl hg))
          · exact Or.inr (Or.inr (Or.inr hg))
        · intro buf hbuf
          unfold decodeAudioData at hbuf
          rw [if_neg (by omega), if_pos (by
            rcases hg with hg | hg
            · right; left; exact hg
            · right; right; left; exact hfc0.mpr hg)] at hbuf
          exact absurd hbuf (by simp)
      case neg =>
        push_neg at hg
        obtain ⟨hg1, hg2⟩ := hg
        have hguard : ¬ (ch = 0 ∨ 32 < ch ∨ (bytesToInt16 data).length / ch = 0 ∨
            (24000 : ℚ) < 8000 ∨ (96000 : ℚ) < 24000) := by
          push_neg
          exact ⟨hch0, by omega, fun hx => absurd (hfc0.mp hx) (by omega), by norm_num, by norm_num⟩
        constructor
        · unfold decodeAudioData
          rw [if_neg (by omega), if_neg hguard]
          simp only [reduceCtorEq, false_iff]
          push_neg
          exact ⟨hodd, hch0, by omega, by omega⟩
        · intro buf hbuf
          unfold decodeAudioData at hbuf
          rw [if_neg (by omega), if_neg hguard] at hbuf
          have hbuf2 := (Option.some.injEq _ _).mp hbuf
          subst hbuf2
          refine ⟨rfl, hfc, by simp, ?_⟩
          intro j hj i hi
          rw [getD_map_range _ hj []]
          have hi2 : i < (bytesToInt16 data).length / ch := by
            simp only at hi
            omega
          rw [getD_map_range _ hi2 (0 : ℚ)]
          rw [bytesToInt16_getD data (i * ch + j) hodd]

/-- Claim C4 counterexample: six bytes with two channels — the byte length
is not a multiple of 2 × channelCount = 4, yet decoding succeeds (with the
fractional frame count truncated to 1) instead of failing. -/
theorem C4_decode_failure_counterexample :
    (decodeAudioData [0, 0, 0, 0, 0, 0] 24000 2).isSome = true
    ∧ (6 : ℕ) % (2 * 2) ≠ 0 := by
  constructor
  · simp [decodeAudioData, bytesToInt16, toInt16]
    norm_num
  · decide

/-- Witness for C4 at a concrete two-byte mono frame. -/
theorem C4_decode_failure_witness :
    decodeAudioData [1, 0] 24000 1 = some ⟨24000, 1, [[(1 : ℚ) / 32768]]⟩
    ∧ (⟨24000, 1, [[(1 : ℚ) / 32768]]⟩ : JsAudioBuffer).frameCount = 2 / (2 * 1)
    ∧ ((⟨24000, 1, [[(1 : ℚ) / 32768]]⟩ : JsAudioBuffer).channels.getD 0 []).getD 0 0
        = (leInt16At [1, 0] (0 * 1 + 0) : ℚ) / 32768 := by
  have h : decodeAudioData [1, 0] 24000 1 = some ⟨24000, 1, [[(1 : ℚ) / 32768]]⟩ := by
    simp [decodeAudioData, bytesToInt16, toInt16, List.range_succ]
    norm_num
  have happ := (C4_decode_failure [1, 0] 1).2 _ h
  exact ⟨h, happ.2.1, happ.2.2.2 0 (by omega) 0 (by
    rw [happ.2.1]
    decide)⟩

/-! ## Transport text encoding: base64 (src/lib/utils.ts lines 61-78)

`uint8ArrayToBase64` models the source function of the same name composed
with the browser `btoa`: each byte becomes one character code (identity on
values below 256), and `btoa` emits standard base64 with `=` padding
(character code 61).  `base64ToUint8Array` models `atob` (forgiving-base64:
when the length is a multiple of 4, up to two trailing `=` are removed;
a remainder-1 group or a character outside the alphabet fails, modelled as
`none`) followed by `charCodeAt` on each output character.  Whitespace
stripping is omitted: `btoa` output never contains whitespace. -/


def b64Alphabet : List ℕ :=
  [65, 66, 67, 68, 69, 70, 71, 72, 73, 74, 75, 76, 77, 78, 79, 80, 81, 82, 83,
   84, 85, 86, 87, 88, 89, 90,
   97, 98, 99, 100, 101, 102, 103, 104, 105, 106, 107, 108, 109, 110, 111, 112,
   113, 114, 115, 116, 117, 118, 119, 120, 121, 122,
   48, 49, 50, 51, 52, 53, 54, 55, 56, 57, 43, 47]

def sextetToCode (k : ℕ) : ℕ := b64Alphabet.getD k 0

def codeToSextet (c : ℕ) : Option ℕ := b64Alphabet.indexOf? c

def uint8ArrayToBase64 : List ℕ → List ℕ
  | [] => []
  | [a] => [sextetToCode (a / 4), sextetToCode (a % 4 * 16), 61, 61]
  | [a, b] => [sextetToCode (a / 4), sextetToCode (a % 4 * 16 + b / 16),
               sextetToCode (b % 16 * 4), 61]
  | a :: b :: c :: rest =>
      sextetToCode (a / 4) :: sextetToCode (a % 4 * 16 + b / 16) ::
      sextetToCode (b % 16 * 4 + c / 64) :: sextetToCode (c % 64) ::
      uint8ArrayToBase64 rest

def stripPad : List ℕ → List ℕ
  | [] => []
  | [c] => if c = 61 then [] else [c]
  | [c, d] => if c = 61 ∧ d = 61 then [] else c :: (if d = 61 then [] else [d])
  | c :: d :: e :: rest => c :: stripPad (d :: e :: rest)

def atobChunks : List ℕ → Option (List ℕ)
  | [] => some []
  | [c1, c2] =>
      (codeToSextet c1).bind fun s1 =>
      (codeToSextet c2).bind fun s2 =>
      some [s1 * 4 + s2 / 16]
  | [c1, c2, c3] =>
      (codeToSextet c1).bind fun s1 =>
      (codeToSextet c2).bind fun s2 =>
      (codeToSextet c3).bind fun s3 =>
      some [s1 * 4 + s2 / 16, s2 % 16 * 16 + s3 / 4]
  | c1 :: c2 :: c3 :: c4 :: rest =>
      (codeToSextet c1).bind fun s1 =>
      (codeToSextet c2).bind fun s2 =>
      (codeToSextet c3).bind fun s3 =>
      (codeToSextet c4).bind fun s4 =>
      (atobChunks rest).bind fun tl =>
      some ((s1 * 4 + s2 / 16) :: (s2 % 16 * 16 + s3 / 4) :: (s3 % 4 * 64 + s4) :: tl)
  | _ => none

def base64ToUint8Array (s : List ℕ) : Option (List ℕ) :=
  if s.length % 4 = 0 then atobChunks (stripPad s) else atobChunks s


lemma codeToSextet_sextetToCode : ∀ k, k < 64 → codeToSextet (sextetToCode k) = some k := by
  decide

lemma sextetToCode_ne_61 (k : ℕ) : sextetToCode k ≠ 61 := by
  by_cases h : k < 64
  · revert h
    revert k
    decide
  · unfold sextetToCode
    rw [List.getD_eq_default]
    · decide
    · push_neg at h
      simpa [b64Alphabet] using h

lemma uint8ArrayToBase64_length_mod4 : ∀ l : List ℕ,
    (uint8ArrayToBase64 l).length % 4 = 0
  | [] => rfl
  | [_] => by simp [uint8ArrayToBase64]
  | [_, _] => by simp [uint8ArrayToBase64]
  | a :: b :: c :: rest => by
    show (_ :: _ :: _ :: _ :: uint8ArrayToBase64 rest).length % 4 = 0
    simp only [List.length_cons]
    have := uint8ArrayToBase64_length_mod4 rest
    omega

lemma uint8ArrayToBase64_length_ge (l : List ℕ) (h : l ≠ []) :
    2 ≤ (uint8ArrayToBase64 l).length := by
  match l with
  | [] => exact absurd rfl h
  | [_] => simp [uint8ArrayToBase64]
  | [_, _] => simp [uint8ArrayToBase64]
  | a :: b :: c :: rest => simp [uint8ArrayToBase64]

lemma stripPad_cons {l : List ℕ} (x : ℕ) (h : 2 ≤ l.length) :
    stripPad (x :: l) = x :: stripPad l := by
  match l with
  | y :: z :: l2 => rfl
  | [] => simp at h
  | [y] => simp at h

lemma stripPad_append : ∀ (xs t : List ℕ), 2 ≤ t.length →
    stripPad (xs ++ t) = xs ++ stripPad t
  | [], t, h => rfl
  | x :: xs, t, h => by
    rw [List.cons_append, stripPad_cons x (by simp; omega), stripPad_append xs t h,
      List.cons_append]

lemma stripPad_two_pad (e1 e2 : ℕ) :
    stripPad [e1, e2, 61, 61] = [e1, e2] := by
  rw [stripPad_cons e1 (by simp), stripPad_cons e2 (by simp)]
  show e1 :: e2 :: (if (61 : ℕ) = 61 ∧ (61 : ℕ) = 61 then ([] : List ℕ) else _) = _
  rw [if_pos ⟨rfl, rfl⟩]

lemma stripPad_one_pad (e1 e2 e3 : ℕ) (h3 : e3 ≠ 61) :
    stripPad [e1, e2, e3, 61] = [e1, e2, e3] := by
  rw [stripPad_cons e1 (by simp), stripPad_cons e2 (by simp)]
  show e1 :: e2 :: (if e3 = 61 ∧ (61 : ℕ) = 61 then ([] : List ℕ)
      else e3 :: (if (61 : ℕ) = 61 then [] else [61])) = _
  rw [if_neg (by simp [h3]), if_pos rfl]

lemma stripPad_no_pad (e1 e2 e3 e4 : ℕ) (h4 : e4 ≠ 61) :
    stripPad [e1, e2, e3, e4] = [e1, e2, e3, e4] := by
  rw [stripPad_cons e1 (by simp), stripPad_cons e2 (by simp)]
  show e1 :: e2 :: (if e3 = 61 ∧ e4 = 61 then ([] : List ℕ)
      else e3 :: (if e4 = 61 then [] else [e4])) = _
  rw [if_neg (by simp [h4]), if_neg h4]

lemma atob_strip_uint8 : ∀ l : List ℕ, (∀ x ∈ l, x < 256) →
    atobChunks (stripPad (uint8ArrayToBase64 l)) = some l
  | [], _ => rfl
  | [a], h => by
    have ha : a < 256 := h a (by simp)
    show atobChunks (stripPad [sextetToCode (a / 4), sextetToCode (a % 4 * 16), 61, 61])
      = some [a]
    rw [stripPad_two_pad]
    show ((codeToSextet (sextetToCode (a / 4))).bind fun s1 =>
      (codeToSextet (sextetToCode (a % 4 * 16))).bind fun s2 =>
      some [s1 * 4 + s2 / 16]) = some [a]
    rw [codeToSextet_sextetToCode _ (by omega), codeToSextet_sextetToCode _ (by omega)]
    simp only [Option.some_bind]
    congr 1
    have e1 : a / 4 * 4 + a % 4 * 16 / 16 = a := by omega
    rw [e1]
  | [a, b], h => by
    have ha : a < 256 := h a (by simp)
    have hb : b < 256 := h b (by simp)
    show atobChunks (stripPad [sextetToCode (a / 4), sextetToCode (a % 4 * 16 + b / 16),
      sextetToCode (b % 16 * 4), 61]) = some [a, b]
    rw [stripPad_one_pad _ _ _ (sextetToCode_ne_61 _)]
    show ((codeToSextet (sextetToCode (a / 4))).bind fun s1 =>
      (codeToSextet (sextetToCode (a % 4 * 16 + b / 16))).bind fun s2 =>
      (codeToSextet (sextetToCode (b % 16 * 4))).bind fun s3 =>
      some [s1 * 4 + s2 / 16, s2 % 16 * 16 + s3 / 4]) = some [a, b]
    rw [codeToSextet_sextetToCode _ (by omega), codeToSextet_sextetToCode _ (by omega),
      codeToSextet_sextetToCode _ (by omega)]
    simp only [Option.some_bind]
    congr 1
    have e1 : a / 4 * 4 + (a % 4 * 16 + b / 16) / 16 = a := by omega
    have e2 : (a % 4 * 16 + b / 16) % 16 * 16 + b % 16 * 4 / 4 = b := by omega
    rw [e1, e2]
  | a :: b :: c :: rest, h => by
    have ha : a < 256 := h a (by simp)
    have hb : b < 256 := h b (by simp)
    have hc : c < 256 := h c (by simp)
    have hrest : ∀ x ∈ rest, x < 256 := fun x hx => h x (by simp [hx])
    have hs1 := codeToSextet_sextetToCode (a / 4) (by omega)
    have hs2 := codeToSextet_sextetToCode (a % 4 * 16 + b / 16) (by omega)
    have hs3 := codeToSextet_sextetToCode (b % 16 * 4 + c / 64) (by omega)
    have hs4 := codeToSextet_sextetToCode (c % 64) (by omega)
    have e1 : a / 4 * 4 + (a % 4 * 16 + b / 16) / 16 = a := by omega
    have e2 : (a % 4 * 16 + b / 16) % 16 * 16 + (b % 16 * 4 + c / 64) / 4 = b := by omega
    have e3 : (b % 16 * 4 + c / 64) % 4 * 64 + c % 64 = c := by omega
    show atobChunks (stripPad (sextetToCode (a / 4) :: sextetToCode (a % 4 * 16 + b / 16) ::
      sextetToCode (b % 16 * 4 + c / 64) :: sextetToCode (c % 64) ::
      uint8ArrayToBase64 rest)) = some (a :: b :: c :: rest)
    by_cases hre : rest = []
    · subst hre
      show atobChunks (stripPad [sextetToCode (a / 4), sextetToCode (a % 4 * 16 + b / 16),
        sextetToCode (b % 16 * 4 + c / 64), sextetToCode (c % 64)]) = some [a, b, c]
      rw [stripPad_no_pad _ _ _ _ (sextetToCode_ne_61 _)]
      show ((codeToSextet (sextetToCode (a / 4))).bind fun s1 =>
        (codeToSextet (sextetToCode (a % 4 * 16 + b / 16))).bind fun s2 =>
        (codeToSextet (sextetToCode (b % 16 * 4 + c / 64))).bind fun s3 =>
        (codeToSextet (sextetToCode (c % 64))).bind fun s4 =>
        (atobChunks []).bind fun tl =>
        some ((s1 * 4 + s2 / 16) :: (s2 % 16 * 16 + s3 / 4) :: (s3 % 4 * 64 + s4) :: tl))
        = some [a, b, c]
      rw [hs1, hs2, hs3, hs4]
      simp only [Option.some_bind]
      show (some ([] : List ℕ)).bind _ = _
      simp only [Option.some_bind]
      rw [e1, e2, e3]
    · have hlen := uint8ArrayToBase64_length_ge rest hre
      have hsp := stripPad_append [sextetToCode (a / 4), sextetToCode (a % 4 * 16 + b / 16),
          sextetToCode (b % 16 * 4 + c / 64), sextetToCode (c % 64)]
          (uint8ArrayToBase64 rest) hlen
      simp only [List.cons_append, List.nil_append] at hsp
      rw [hsp]
      show ((codeToSextet (sextetToCode (a / 4))).bind fun s1 =>
        (codeToSextet (sextetToCode (a % 4 * 16 + b / 16))).bind fun s2 =>
        (codeToSextet (sextetToCode (b % 16 * 4 + c / 64))).bind fun s3 =>
        (codeToSextet (sextetToCode (c % 64))).bind fun s4 =>
        (atobChunks (stripPad (uint8ArrayToBase64 rest))).bind fun tl =>
        some ((s1 * 4 + s2 / 16) :: (s2 % 16 * 16 + s3 / 4) :: (s3 % 4 * 64 + s4) :: tl))
        = some (a :: b :: c :: rest)
      rw [hs1, hs2, hs3, hs4, atob_strip_uint8 rest hrest]
      simp only [Option.some_bind]
      rw [e1, e2, e3]

/-- Claim C8: decoding the textual encoding of any byte sequence returns the
original sequence exactly, preserving length and every byte value. -/
theorem C8_base64_roundtrip (bytes : List ℕ) (h : ∀ x ∈ bytes, x < 256) :
    base64ToUint8Array (uint8ArrayToBase64 bytes) = some bytes := by
  unfold base64ToUint8Array
  rw [if_pos (uint8ArrayToBase64_length_mod4 bytes)]
  exact atob_strip_uint8 bytes h


/-- Witness for C8 on a concrete byte sequence. -/
theorem C8_base64_roundtrip_witness :
    (∀ x ∈ [0, 255, 77, 128], x < 256) ∧
    base64ToUint8Array (uint8ArrayToBase64 [0, 255, 77, 128]) = some [0, 255, 77, 128] :=
  ⟨by decide, C8_base64_roundtrip [0, 255, 77, 128] (by decide)⟩

/-! ## CaptureLoop: the `onaudioprocess` callback
(ChatInterface.tsx lines 1057-1088)

The callback state is the volume shown to the UI (`setVolume`) and the
throttle timestamp (`lastVolumeUpdateRef`).  `now` is `Date.now()` in
milliseconds.  The returned option is the frame handed to
`sendRealtimeInput`: `none` when nothing is sent.  The volume uses real
square roots, hence the noncomputable marker; everything else is exact. -/

structure CaptureState where
  volume : ℝ
  lastVolumeUpdate : ℤ

/-- Root mean square of a block: `Math.sqrt(sum / inputData.length)` with
`sum` the sum of squared samples (lines 1065-1067). -/
noncomputable def rms (block : List ℚ) : ℝ :=
  Real.sqrt ((block.map fun x : ℚ => ((x : ℝ) * (x : ℝ))).sum / block.length)

/-- The capture callback: early return when the mic is off (line 1058);
throttled volume update (lines 1063-1070); PCM16 conversion and base64
transport encoding of the outbound frame (lines 1072-1087). -/
noncomputable def onaudioprocess (isMicOn : Bool) (st : CaptureState) (now : ℤ)
    (block : List ℚ) : CaptureState × Option (List ℕ) :=
  if !isMicOn then (st, none)
  else
    let st2 := if 100 < now - st.lastVolumeUpdate
      then { volume := min (rms block * 100 * 3) 100, lastVolumeUpdate := now }
      else st
    (st2, some (uint8ArrayToBase64 (pcm16Bytes block)))

/-! ## Claim C7: VolumeMeter contract -/

/-- Claim C7: the volume is recomputed only when more than 100 ms have
elapsed since the last update (otherwise the state is returned untouched);
on recompute the value is min(rms × 300, 100) and the timestamp becomes
`now`; the recomputed value lies in the interval 0..100; and an all-zero
block yields volume 0. -/
theorem C7_volume_meter : ∀ (st : CaptureState) (now : ℤ) (block : List ℚ),
    0 < block.length →
    (¬ 100 < now - st.lastVolumeUpdate → (onaudioprocess true st now block).1 = st)
    ∧ (100 < now - st.lastVolumeUpdate →
        (onaudioprocess true st now block).1 = ⟨min (rms block * 300) 100, now⟩
        ∧ 0 ≤ (onaudioprocess true st now block).1.volume
        ∧ (onaudioprocess true st now block).1.volume ≤ 100)
    ∧ (100 < now - st.lastVolumeUpdate → (∀ s ∈ block, s = 0) →
        (onaudioprocess true st now block).1.volume = 0) := by
  intro st now block _
  have hrms : 0 ≤ rms block := Real.sqrt_nonneg _
  refine ⟨?_, ?_, ?_⟩
  · intro hthr
    unfold onaudioprocess
    rw [if_neg (by simp), if_neg hthr]
  · intro hthr
    have hst : (onaudioprocess true st now block).1
        = ⟨min (rms block * 100 * 3) 100, now⟩ := by
      unfold onaudioprocess
      rw [if_neg (by simp), if_pos hthr]
    have hform : min (rms block * 100 * 3) 100 = min (rms block * 300) 100 := by
      have : rms block * 100 * 3 = rms block * 300 := by ring
      rw [this]
    refine ⟨by rw [hst, hform], ?_, ?_⟩
    · rw [hst]
      exact le_min (by positivity) (by norm_num)
    · rw [hst]
      exact min_le_right _ _
  · intro hthr hzero
    have hsum : (block.map fun x : ℚ => ((x : ℝ) * (x : ℝ))).sum = 0 := by
      apply List.sum_eq_zero
      intro y hy
      obtain ⟨x, hx, rfl⟩ := List.mem_map.mp hy
      rw [hzero x hx]
      norm_num
    have hrms0 : rms block = 0 := by
      unfold rms
      rw [hsum, zero_div, Real.sqrt_zero]
    unfold onaudioprocess
    rw [if_neg (by simp), if_pos hthr]
    show min (rms block * 100 * 3) 100 = 0
    rw [hrms0]
    norm_num

/-- Witness for C7: a silent one-sample block after the throttle window. -/
theorem C7_volume_meter_witness :
    (0 < [(0 : ℚ)].length)
    ∧ (onaudioprocess true ⟨5, 0⟩ 200 [(0 : ℚ)]).1.volume = 0 :=
  ⟨by simp, (C7_volume_meter ⟨5, 0⟩ 200 [(0 : ℚ)] (by simp)).2.2 (by decide)
    (by intro s hs; simpa using hs)⟩

/-! ## Claim C9: muted capture -/

/-- Claim C9: while the microphone is muted the capture callback consumes
the block and returns without error, sends no outbound frame, and leaves
the volume value and throttle timestamp unchanged. -/
theorem C9_muted_capture : ∀ (st : CaptureState) (now : ℤ) (block : List ℚ),
    onaudioprocess false st now block = (st, none) := by
  intro st now block
  rfl

/-! ## PlaybackScheduler: the `onmessage` callback
(ChatInterface.tsx lines 1095-1141)

`PlaybackState` holds `nextStartTimeRef` (the playback cursor) and
`sourcesRef` (the set of scheduled-but-not-finished source nodes, modelled
as a list).  A `LiveServerMessage` is reduced to the fields the handler
reads: the `serverContent.interrupted` flag and, per model-turn part, the
optional `inlineData.data` payload — carried here as the decoded byte
sequence, the base64 layer being proved exact separately (claim C8).
`now` is `audioContext.currentTime`.  The second component of the result
is the list of source nodes the handler called `stop()` on (the
interruption branch); `stopSource` models `source.stop()` inside its
try/catch: stopping an already-stopped node leaves it stopped and raises
nothing.  The `isEmpty` guard models the JavaScript truthiness test
`if (audioData && ...)`: an empty data string is falsy and skips the whole
branch, including the cursor clamp. -/


structure BufferSource where
  start : ℚ
  duration : ℚ
  stopped : Bool
deriving DecidableEq, Repr

structure PlaybackState where
  nextStartTime : ℚ
  sources : List BufferSource
deriving DecidableEq, Repr

structure LiveServerMessage where
  interrupted : Bool
  parts : List (Option (List ℕ))
deriving DecidableEq, Repr

def stopSource (s : BufferSource) : BufferSource := { s with stopped := true }

def partsHeadData (msg : LiveServerMessage) : Option (List ℕ) :=
  msg.parts.getD 0 none

def onmessage (st : PlaybackState) (now : ℚ) (msg : LiveServerMessage) :
    PlaybackState × List BufferSource :=
  if msg.interrupted then
    ({ nextStartTime := now, sources := [] }, st.sources.map stopSource)
  else
    match partsHeadData msg with
    | none => (st, [])
    | some audioData =>
      if audioData.isEmpty then (st, [])
      else
        let t := max st.nextStartTime now
        match decodeAudioData audioData 24000 1 with
        | none => ({ nextStartTime := t, sources := st.sources }, [])
        | some buf =>
          ({ nextStartTime := t + buf.duration,
             sources := st.sources ++
               [{ start := t, duration := buf.duration, stopped := false }] }, [])

def onopen (st : PlaybackState) (now : ℚ) : PlaybackState :=
  { st with nextStartTime := now }

def audioMsg (bytes : List ℕ) : LiveServerMessage :=
  { interrupted := false, parts := [some bytes] }

/- branch reduction lemmas -/

lemma onmessage_interrupted (st : PlaybackState) (now : ℚ) (msg : LiveServerMessage)
    (hint : msg.interrupted = true) :
    onmessage st now msg
      = ({ nextStartTime := now, sources := [] }, st.sources.map stopSource) := by
  rw [onmessage, hint]
  simp only [if_true]

lemma onmessage_nodata (st : PlaybackState) (now : ℚ) (msg : LiveServerMessage)
    (hint : msg.interrupted = false) (hpd : partsHeadData msg = none) :
    onmessage st now msg = (st, []) := by
  rw [onmessage, hint, hpd]
  simp only [Bool.false_eq_true, if_false]

lemma onmessage_emptydata (st : PlaybackState) (now : ℚ) (msg : LiveServerMessage)
    (bytes : List ℕ)
    (hint : msg.interrupted = false) (hpd : partsHeadData msg = some bytes)
    (hne : bytes.isEmpty = true) :
    onmessage st now msg = (st, []) := by
  rw [onmessage, hint, hpd]
  simp only [Bool.false_eq_true, if_false, hne, if_true]

lemma onmessage_data_none (st : PlaybackState) (now : ℚ) (msg : LiveServerMessage)
    (bytes : List ℕ)
    (hint : msg.interrupted = false) (hpd : partsHeadData msg = some bytes)
    (hne : bytes.isEmpty = false) (hdec : decodeAudioData bytes 24000 1 = none) :
    onmessage st now msg
      = ({ nextStartTime := max st.nextStartTime now, sources := st.sources }, []) := by
  rw [onmessage, hint, hpd]
  simp only [Bool.false_eq_true, if_false, hne, hdec]

lemma onmessage_data_some (st : PlaybackState) (now : ℚ) (msg : LiveServerMessage)
    (bytes : List ℕ) (buf : JsAudioBuffer)
    (hint : msg.interrupted = false) (hpd : partsHeadData msg = some bytes)
    (hne : bytes.isEmpty = false) (hdec : decodeAudioData bytes 24000 1 = some buf) :
    onmessage st now msg
      = ({ nextStartTime := max st.nextStartTime now + buf.duration,
           sources := st.sources ++ [⟨max st.nextStartTime now, buf.duration, false⟩] }, []) := by
  rw [onmessage, hint, hpd]
  simp only [Bool.false_eq_true, if_false, hne, hdec]

lemma decode_some_facts {bytes : List ℕ} {buf : JsAudioBuffer}
    (h : decodeAudioData bytes 24000 1 = some buf) :
    bytes.isEmpty = false ∧ buf.duration = ((bytes.length / 2 : ℕ) : ℚ) / 24000 := by
  unfold decodeAudioData at h
  by_cases hodd : bytes.length % 2 ≠ 0
  · rw [if_pos hodd] at h
    exact absurd h (by simp)
  · rw [if_neg hodd] at h
    by_cases hg : (1 : ℕ) = 0 ∨ 32 < (1 : ℕ) ∨ (bytesToInt16 bytes).length / 1 = 0 ∨
        (24000 : ℚ) < 8000 ∨ (96000 : ℚ) < 24000
    · rw [if_pos hg] at h
      exact absurd h (by simp)
    · rw [if_neg hg] at h
      push_neg at hg
      have hfc : (bytesToInt16 bytes).length / 1 ≠ 0 := hg.2.2.1
      have hlen := bytesToInt16_length bytes
      have hbuf := (Option.some.injEq _ _).mp h
      constructor
      · have hz : bytes.length ≠ 0 := by
          intro hz0
          rw [Nat.div_one, hlen, hz0] at hfc
          exact hfc rfl
        cases bytes with
        | nil => exact absurd rfl hz
        | cons a l => rfl
      · rw [← hbuf]
        unfold JsAudioBuffer.duration
        simp only [Nat.div_one]
        rw [hlen]

lemma decode_duration_nonneg {bytes : List ℕ} {buf : JsAudioBuffer}
    (h : decodeAudioData bytes 24000 1 = some buf) : 0 ≤ buf.duration := by
  rw [(decode_some_facts h).2]
  positivity

/- C2 -/

/-- Claim C2: processing an interruption signal stops every buffer in the
active set (the returned list is the stopped nodes, one per active source,
all stopped; stopping an already-stopped node is a no-op), clears the
active set, and resets the cursor to the current virtual-clock time. -/
theorem C2_interruption : ∀ (st : PlaybackState) (now : ℚ) (msg : LiveServerMessage),
    msg.interrupted = true →
    (onmessage st now msg).1.sources = []
    ∧ (onmessage st now msg).1.nextStartTime = now
    ∧ (onmessage st now msg).2.length = st.sources.length
    ∧ (∀ s ∈ (onmessage st now msg).2, s.stopped = true)
    ∧ (∀ s : BufferSource, s.stopped = true → stopSource s = s) := by
  intro st now msg hint
  rw [onmessage_interrupted st now msg hint]
  refine ⟨rfl, rfl, List.length_map _ _, ?_, ?_⟩
  · intro s hs
    obtain ⟨x, hx, rfl⟩ := List.mem_map.mp hs
    rfl
  · intro s hs
    unfold stopSource
    cases s with
    | mk a b c =>
      simp only at hs
      rw [hs]

/-- Witness for C2 with two active sources, one already finished. -/
theorem C2_interruption_witness :
    (({ interrupted := true, parts := [] } : LiveServerMessage).interrupted = true)
    ∧ (onmessage ⟨7, [⟨0, 1, false⟩, ⟨1, 2, true⟩]⟩ 3
        { interrupted := true, parts := [] }).1.sources = []
    ∧ (onmessage ⟨7, [⟨0, 1, false⟩, ⟨1, 2, true⟩]⟩ 3
        { interrupted := true, parts := [] }).1.nextStartTime = 3
    ∧ (∀ s ∈ (onmessage ⟨7, [⟨0, 1, false⟩, ⟨1, 2, true⟩]⟩ 3
        { interrupted := true, parts := [] }).2, s.stopped = true) := by
  have h := C2_interruption ⟨7, [⟨0, 1, false⟩, ⟨1, 2, true⟩]⟩ 3
    { interrupted := true, parts := [] } rfl
  exact ⟨rfl, h.1, h.2.1, h.2.2.2.1⟩

/- C5 -/

/-- Claim C5 (amended): a chunk whose decode fails is dropped without being
scheduled (sources unchanged, nothing returned) and the scheduler keeps
scheduling later chunks; the cursor, however, is not left exactly unchanged:
the handler clamps it to max(cursor, now) before the decode attempt
(ChatInterface.tsx line 1117 precedes the try block), so a failing chunk can
still raise the cursor to the current time — it just never advances it by
any duration. -/
theorem C5_decode_drop : ∀ (st : PlaybackState) (now : ℚ) (bytes : List ℕ),
    bytes ≠ [] → decodeAudioData bytes 24000 1 = none →
    (onmessage st now (audioMsg bytes)).1.sources = st.sources
    ∧ (onmessage st now (audioMsg bytes)).1.nextStartTime = max st.nextStartTime now
    ∧ (onmessage st now (audioMsg bytes)).2 = []
    ∧ (∀ (bytes2 : List ℕ) (buf2 : JsAudioBuffer) (now2 : ℚ),
        decodeAudioData bytes2 24000 1 = some buf2 →
        (onmessage (onmessage st now (audioMsg bytes)).1 now2 (audioMsg bytes2)).1.sources.length
          = st.sources.length + 1) := by
  intro st now bytes hne hdec
  have hne2 : bytes.isEmpty = false := by
    cases bytes with
    | nil => exact absurd rfl hne
    | cons a l => rfl
  rw [onmessage_data_none st now (audioMsg bytes) bytes rfl rfl hne2 hdec]
  refine ⟨rfl, rfl, rfl, ?_⟩
  intro bytes2 buf2 now2 hdec2
  obtain ⟨hne3, _⟩ := decode_some_facts hdec2
  rw [onmessage_data_some _ now2 (audioMsg bytes2) bytes2 buf2 rfl rfl hne3 hdec2]
  simp

/-- Claim C5 counterexample: with cursor 0 and current time 1, a malformed
chunk (odd byte length) leaves the cursor at 1, not at its prior value 0 —
the clamp happens before the decode failure. -/
theorem C5_decode_drop_counterexample :
    decodeAudioData [0, 0, 0] 24000 1 = none
    ∧ (onmessage ⟨0, []⟩ 1 (audioMsg [0, 0, 0])).1.nextStartTime = 1
    ∧ ((0 : ℚ) ≠ 1) := by
  have hdec : decodeAudioData [0, 0, 0] 24000 1 = none := by
    unfold decodeAudioData
    rw [if_pos (by decide)]
  refine ⟨hdec, ?_, by norm_num⟩
  rw [onmessage_data_none ⟨0, []⟩ 1 (audioMsg [0, 0, 0]) [0, 0, 0] rfl rfl rfl hdec]
  show max (0 : ℚ) 1 = 1
  rw [max_eq_right (by norm_num)]

/-- Witness for C5 at a concrete malformed chunk. -/
theorem C5_decode_drop_witness :
    ([(0 : ℕ), 0, 0] ≠ []) ∧ decodeAudioData [0, 0, 0] 24000 1 = none
    ∧ (onmessage ⟨0, []⟩ 1 (audioMsg [0, 0, 0])).1.sources = [] := by
  have hdec : decodeAudioData [0, 0, 0] 24000 1 = none := by
    unfold decodeAudioData
    rw [if_pos (by decide)]
  exact ⟨by simp, hdec, (C5_decode_drop ⟨0, []⟩ 1 [0, 0, 0] (by simp) hdec).1⟩

/- C6 -/

/-- Claim C6: the playback cursor is monotonically non-decreasing across
session-open initialization (from its initial value 0) and across every
non-interrupted message (audio or not, decode failure included); the sole
exception is an interruption, which sets it to the current time (possibly
snapping it down). -/
theorem C6_cursor_monotone : ∀ (st : PlaybackState) (now : ℚ) (msg : LiveServerMessage),
    (msg.interrupted = false → st.nextStartTime ≤ (onmessage st now msg).1.nextStartTime)
    ∧ (msg.interrupted = true → (onmessage st now msg).1.nextStartTime = now)
    ∧ (st.nextStartTime = 0 → 0 ≤ now → st.nextStartTime ≤ (onopen st now).nextStartTime) := by
  intro st now msg
  refine ⟨?_, ?_, ?_⟩
  · intro hint
    match hpd : partsHeadData msg with
    | none =>
      rw [onmessage_nodata st now msg hint hpd]
    | some audioData =>
      match hae : audioData.isEmpty with
      | true =>
        rw [onmessage_emptydata st now msg audioData hint hpd hae]
      | false =>
        match hdec : decodeAudioData audioData 24000 1 with
        | none =>
          rw [onmessage_data_none st now msg audioData hint hpd hae hdec]
          exact le_max_left _ _
        | some buf =>
          rw [onmessage_data_some st now msg audioData buf hint hpd hae hdec]
          have hd := decode_duration_nonneg hdec
          have hm := le_max_left st.nextStartTime now
          show st.nextStartTime ≤ max st.nextStartTime now + buf.duration
          linarith
  · intro hint
    rw [onmessage_interrupted st now msg hint]
  · intro h0 hnow
    unfold onopen
    simp only
    rw [h0]
    exact hnow

/-- Witness for C6 on concrete states for all three operations. -/
theorem C6_cursor_monotone_witness :
    ((audioMsg [0, 0]).interrupted = false
      ∧ (⟨(5 : ℚ), []⟩ : PlaybackState).nextStartTime
          ≤ (onmessage ⟨5, []⟩ 2 (audioMsg [0, 0])).1.nextStartTime)
    ∧ (({ interrupted := true, parts := [] } : LiveServerMessage).interrupted = true
      ∧ (onmessage ⟨5, []⟩ 2 { interrupted := true, parts := [] }).1.nextStartTime = 2)
    ∧ ((⟨(0 : ℚ), []⟩ : PlaybackState).nextStartTime = 0 ∧ (0 : ℚ) ≤ 4
      ∧ (⟨(0 : ℚ), []⟩ : PlaybackState).nextStartTime ≤ (onopen ⟨0, []⟩ 4).nextStartTime) :=
  ⟨⟨rfl, (C6_cursor_monotone ⟨5, []⟩ 2 (audioMsg [0, 0])).1 rfl⟩,
   ⟨rfl, (C6_cursor_monotone ⟨5, []⟩ 2 { interrupted := true, parts := [] }).2.1 rfl⟩,
   ⟨rfl, by norm_num, (C6_cursor_monotone ⟨0, []⟩ 4
      { interrupted := false, parts := [] }).2.2 rfl (by norm_num)⟩⟩

/- C10 -/

lemma partsHeadData_take1 (msg : LiveServerMessage) :
    partsHeadData { msg with parts := msg.parts.take 1 } = partsHeadData msg := by
  unfold partsHeadData
  cases msg.parts with
  | nil => rfl
  | cons p rest => rfl

/-- Claim C10: a non-interrupted message is processed exactly as the same
message restricted to its first part (audio in later parts is ignored and
does not advance the cursor), and at most one buffer is scheduled per
message. -/
theorem C10_single_part : ∀ (st : PlaybackState) (now : ℚ) (msg : LiveServerMessage),
    msg.interrupted = false →
    onmessage st now msg = onmessage st now { msg with parts := msg.parts.take 1 }
    ∧ (onmessage st now msg).1.sources.length ≤ st.sources.length + 1 := by
  intro st now msg hint
  have hint2 : ({ msg with parts := msg.parts.take 1 } : LiveServerMessage).interrupted
      = false := hint
  have hpd1 := partsHeadData_take1 msg
  constructor
  · match hpd : partsHeadData msg with
    | none =>
      rw [onmessage_nodata st now msg hint hpd,
        onmessage_nodata st now _ hint2 (hpd1.trans hpd)]
    | some audioData =>
      match hae : audioData.isEmpty with
      | true =>
        rw [onmessage_emptydata st now msg audioData hint hpd hae,
          onmessage_emptydata st now _ audioData hint2 (hpd1.trans hpd) hae]
      | false =>
        match hdec : decodeAudioData audioData 24000 1 with
        | none =>
          rw [onmessage_data_none st now msg audioData hint hpd hae hdec,
            onmessage_data_none st now _ audioData hint2 (hpd1.trans hpd) hae hdec]
        | some buf =>
          rw [onmessage_data_some st now msg audioData buf hint hpd hae hdec,
            onmessage_data_some st now _ audioData buf hint2 (hpd1.trans hpd) hae hdec]
  · match hpd : partsHeadData msg with
    | none =>
      rw [onmessage_nodata st now msg hint hpd]
      simp
    | some audioData =>
      match hae : audioData.isEmpty with
      | true =>
        rw [onmessage_emptydata st now msg audioData hint hpd hae]
        simp
      | false =>
        match hdec : decodeAudioData audioData 24000 1 with
        | none =>
          rw [onmessage_data_none st now msg audioData hint hpd hae hdec]
          simp
        | some buf =>
          rw [onmessage_data_some st now msg audioData buf hint hpd hae hdec]
          simp

/-- Witness for C10 on a two-part message. -/
theorem C10_single_part_witness :
    ((⟨false, [some [1, 0], some [2, 0]]⟩ : LiveServerMessage).interrupted = false)
    ∧ onmessage ⟨0, []⟩ 0 ⟨false, [some [1, 0], some [2, 0]]⟩
        = onmessage ⟨0, []⟩ 0 { (⟨false, [some [1, 0], some [2, 0]]⟩ : LiveServerMessage)
            with parts := ([some [1, 0], some [2, 0]] : List (Option (List ℕ))).take 1 }
    ∧ (onmessage ⟨0, []⟩ 0 ⟨false, [some [1, 0], some [2, 0]]⟩).1.sources.length ≤ 0 + 1 := by
  have h := C10_single_part ⟨0, []⟩ 0 ⟨false, [some [1, 0], some [2, 0]]⟩ rfl
  exact ⟨rfl, h.1, h.2⟩


/- C1 -/

def chunkDuration (bytes : List ℕ) : ℚ := ((bytes.length / 2 : ℕ) : ℚ) / 24000

lemma decode_duration_chunk {bytes : List ℕ} {buf : JsAudioBuffer}
    (h : decodeAudioData bytes 24000 1 = some buf) :
    buf.duration = chunkDuration bytes := (decode_some_facts h).2

lemma chunkDuration_nonneg (bytes : List ℕ) : 0 ≤ chunkDuration bytes := by
  unfold chunkDuration
  positivity

def runMessages (st : PlaybackState) : List (ℚ × List ℕ) → PlaybackState
  | [] => st
  | (now, bytes) :: rest => runMessages (onmessage st now (audioMsg bytes)).1 rest

def GoodArrivals (st : PlaybackState) : List (ℚ × List ℕ) → Bool
  | [] => true
  | (now, bytes) :: rest =>
      decide (now ≤ st.nextStartTime) && (decodeAudioData bytes 24000 1).isSome
        && GoodArrivals (onmessage st now (audioMsg bytes)).1 rest

def expectedSources (c : ℚ) : List (List ℕ) → List BufferSource
  | [] => []
  | bytes :: rest =>
      ⟨c, chunkDuration bytes, false⟩ :: expectedSources (c + chunkDuration bytes) rest

lemma run_good : ∀ (arr : List (ℚ × List ℕ)) (st : PlaybackState),
    GoodArrivals st arr = true →
    (runMessages st arr).sources
        = st.sources ++ expectedSources st.nextStartTime (arr.map Prod.snd)
    ∧ (runMessages st arr).nextStartTime
        = st.nextStartTime + ((arr.map fun p => chunkDuration p.2).sum)
    ∧ ∀ n, n < arr.length →
        (arr.getD n (0, [])).1
          ≤ st.nextStartTime + (((arr.take n).map fun p => chunkDuration p.2).sum)
  | [], st, _ => by
    refine ⟨by simp [runMessages, expectedSources], by simp [runMessages], ?_⟩
    intro n hn
    simp at hn
  | (now, bytes) :: rest, st, h => by
    have h1 : (now ≤ st.nextStartTime ∧ (decodeAudioData bytes 24000 1).isSome = true)
        ∧ GoodArrivals (onmessage st now (audioMsg bytes)).1 rest = true := by
      have := h
      rw [GoodArrivals] at this
      simpa [Bool.and_eq_true, decide_eq_true_eq] using this
    obtain ⟨⟨hnow, hsome⟩, hrest⟩ := h1
    obtain ⟨buf, hbuf⟩ := Option.isSome_iff_exists.mp hsome
    have hne := (decode_some_facts hbuf).1
    have hdur := decode_duration_chunk hbuf
    have hmax : max st.nextStartTime now = st.nextStartTime := max_eq_left hnow
    have hstep := onmessage_data_some st now (audioMsg bytes) bytes buf rfl rfl hne hbuf
    have hst1 : (onmessage st now (audioMsg bytes)).1
        = ⟨st.nextStartTime + chunkDuration bytes,
           st.sources ++ [⟨st.nextStartTime, chunkDuration bytes, false⟩]⟩ := by
      rw [hstep]
      simp only [hmax, hdur]
    have ih := run_good rest (onmessage st now (audioMsg bytes)).1 hrest
    have hrun : runMessages st ((now, bytes) :: rest)
        = runMessages (onmessage st now (audioMsg bytes)).1 rest := rfl
    refine ⟨?_, ?_, ?_⟩
    · rw [hrun, ih.1, hst1]
      show (st.sources ++ [⟨st.nextStartTime, chunkDuration bytes, false⟩])
          ++ expectedSources (st.nextStartTime + chunkDuration bytes) (rest.map Prod.snd) = _
      rw [List.append_assoc]
      rfl
    · rw [hrun, ih.2.1, hst1]
      show st.nextStartTime + chunkDuration bytes + (rest.map fun p => chunkDuration p.2).sum
          = _
      simp only [List.map_cons, List.sum_cons]
      ring
    · intro n hn
      match n with
      | 0 =>
        simpa using hnow
      | Nat.succ m =>
        have hm : m < rest.length := by
          simp only [List.length_cons] at hn
          omega
        have := ih.2.2 m hm
        rw [hst1] at this
        simp only [List.getD_cons_succ]
        show (rest.getD m (0, [])).1 ≤ _
        have htake : ((now, bytes) :: rest).take (m + 1) = (now, bytes) :: rest.take m := rfl
        rw [htake]
        simp only [List.map_cons, List.sum_cons]
        calc (rest.getD m (0, [])).1
            ≤ st.nextStartTime + chunkDuration bytes
              + ((rest.take m).map fun p => chunkDuration p.2).sum := this
          _ = st.nextStartTime
              + (chunkDuration bytes + ((rest.take m).map fun p => chunkDuration p.2).sum) := by
                ring

lemma expectedSources_getD_start : ∀ (bs : List (List ℕ)) (c : ℚ) (n : ℕ), n < bs.length →
    ((expectedSources c bs).getD n ⟨0, 0, false⟩).start
      = c + ((bs.take n).map chunkDuration).sum
  | [], c, n, hn => by simp at hn
  | b :: rest, c, 0, _ => by
    simp [expectedSources]
  | b :: rest, c, Nat.succ m, hn => by
    have hm : m < rest.length := by
      simp only [List.length_cons] at hn
      omega
    show ((expectedSources (c + chunkDuration b) rest).getD m ⟨0, 0, false⟩).start = _
    rw [expectedSources_getD_start rest (c + chunkDuration b) m hm]
    show c + chunkDuration b + ((rest.take m).map chunkDuration).sum = _
    have htake : (b :: rest).take (m + 1) = b :: rest.take m := rfl
    rw [htake]
    simp only [List.map_cons, List.sum_cons]
    ring

lemma expectedSources_getD_duration : ∀ (bs : List (List ℕ)) (c : ℚ) (n : ℕ), n < bs.length →
    ((expectedSources c bs).getD n ⟨0, 0, false⟩).duration = chunkDuration (bs.getD n [])
  | [], c, n, hn => by simp at hn
  | b :: rest, c, 0, _ => by simp [expectedSources]
  | b :: rest, c, Nat.succ m, hn => by
    have hm : m < rest.length := by
      simp only [List.length_cons] at hn
      omega
    show ((expectedSources (c + chunkDuration b) rest).getD m ⟨0, 0, false⟩).duration = _
    rw [expectedSources_getD_duration rest (c + chunkDuration b) m hm]
    rfl

lemma sum_take_succ_chunk (bs : List (List ℕ)) (i : ℕ) (h : i < bs.length) :
    ((bs.take (i + 1)).map chunkDuration).sum
      = ((bs.take i).map chunkDuration).sum + chunkDuration (bs.getD i []) := by
  rw [List.take_succ]
  simp only [List.map_append, List.sum_append]
  rw [List.getElem?_eq_getElem h]
  simp only [Option.toList_some, List.map_cons, List.map_nil, List.sum_cons, List.sum_nil]
  rw [List.getD_eq_getElem bs [] h]
  ring

lemma sum_take_le_chunk : ∀ (bs : List (List ℕ)) (i j : ℕ), i ≤ j →
    ((bs.take i).map chunkDuration).sum ≤ ((bs.take j).map chunkDuration).sum := by
  intro bs i j hij
  have hsplit : bs.take j = bs.take i ++ ((bs.drop i).take (j - i)) := by
    rw [← List.take_add]
    congr 1
    omega
  rw [hsplit]
  simp only [List.map_append, List.sum_append]
  have : 0 ≤ (((bs.drop i).take (j - i)).map chunkDuration).sum := by
    apply List.sum_nonneg
    intro x hx
    obtain ⟨y, _, rfl⟩ := List.mem_map.mp hx
    exact chunkDuration_nonneg y
  linarith

/-- Claim C1: every successfully decoded chunk is scheduled at
start = max(cursor, now) taken at its arrival and the cursor then advances
by the buffer duration; consequently, for a run of chunks during which the
virtual clock never passes the cursor, the n-th scheduled buffer starts at
the cursor value at first arrival plus the sum of the previous durations,
no buffer starts before an earlier buffer's start plus that buffer's
duration, and no buffer starts before its own arrival time. -/
theorem C1_gapless_scheduling :
    (∀ (st : PlaybackState) (now : ℚ) (bytes : List ℕ) (buf : JsAudioBuffer),
        decodeAudioData bytes 24000 1 = some buf →
        onmessage st now (audioMsg bytes)
          = ({ nextStartTime := max st.nextStartTime now + buf.duration,
               sources := st.sources
                 ++ [⟨max st.nextStartTime now, buf.duration, false⟩] }, []))
    ∧ (∀ (arr : List (ℚ × List ℕ)) (st : PlaybackState), GoodArrivals st arr = true →
        (runMessages st arr).sources
            = st.sources ++ expectedSources st.nextStartTime (arr.map Prod.snd)
        ∧ (runMessages st arr).nextStartTime
            = st.nextStartTime + ((arr.map fun p => chunkDuration p.2).sum)
        ∧ (∀ n, n < arr.length →
            ((expectedSources st.nextStartTime (arr.map Prod.snd)).getD n ⟨0, 0, false⟩).start
              = st.nextStartTime + (((arr.map Prod.snd).take n).map chunkDuration).sum)
        ∧ (∀ i j, i < j → j < arr.length →
            ((expectedSources st.nextStartTime (arr.map Prod.snd)).getD i ⟨0, 0, false⟩).start
              + ((expectedSources st.nextStartTime (arr.map Prod.snd)).getD i
                  ⟨0, 0, false⟩).duration
              ≤ ((expectedSources st.nextStartTime (arr.map Prod.snd)).getD j
                  ⟨0, 0, false⟩).start)
        ∧ (∀ n, n < arr.length →
            (arr.getD n (0, [])).1
              ≤ ((expectedSources st.nextStartTime (arr.map Prod.snd)).getD n
                  ⟨0, 0, false⟩).start)) := by
  constructor
  · intro st now bytes buf hbuf
    exact onmessage_data_some st now (audioMsg bytes) bytes buf rfl rfl
      (decode_some_facts hbuf).1 hbuf
  · intro arr st hga
    have hr := run_good arr st hga
    have hlenmap : (arr.map Prod.snd).length = arr.length := List.length_map _ _
    refine ⟨hr.1, hr.2.1, ?_, ?_, ?_⟩
    · intro n hn
      exact expectedSources_getD_start (arr.map Prod.snd) st.nextStartTime n (by omega)
    · intro i j hij hj
      rw [expectedSources_getD_start (arr.map Prod.snd) st.nextStartTime i (by omega),
        expectedSources_getD_start (arr.map Prod.snd) st.nextStartTime j (by omega),
        expectedSources_getD_duration (arr.map Prod.snd) st.nextStartTime i (by omega)]
      have hstep := sum_take_succ_chunk (arr.map Prod.snd) i (by omega)
      have hle := sum_take_le_chunk (arr.map Prod.snd) (i + 1) j (by omega)
      linarith
    · intro n hn
      rw [expectedSources_getD_start (arr.map Prod.snd) st.nextStartTime n (by omega)]
      have := hr.2.2 n hn
      have hmaps : (((arr.map Prod.snd).take n).map chunkDuration).sum
          = (((arr.take n).map fun p => chunkDuration p.2).sum) := by
        rw [← List.map_take]
        rw [List.map_map]
        rfl
      rw [hmaps]
      exact this

/-- Witness for C1 on a one-chunk run from the initial state. -/
theorem C1_gapless_scheduling_witness :
    GoodArrivals ⟨0, []⟩ [((0 : ℚ), [0, 0])] = true
    ∧ (runMessages ⟨0, []⟩ [((0 : ℚ), [0, 0])]).sources
        = (⟨0, []⟩ : PlaybackState).sources
          ++ expectedSources (⟨(0 : ℚ), []⟩ : PlaybackState).nextStartTime
              ([((0 : ℚ), [0, 0])].map Prod.snd) := by
  have hdec : (decodeAudioData [0, 0] 24000 1).isSome = true := by
    simp [decodeAudioData, bytesToInt16, toInt16]
    norm_num
  have hga : GoodArrivals ⟨0, []⟩ [((0 : ℚ), [0, 0])] = true := by
    rw [GoodArrivals, GoodArrivals]
    simp only [Bool.and_eq_true, decide_eq_true_eq]
    exact ⟨⟨le_refl _, hdec⟩, trivial⟩
  exact ⟨hga, (C1_gapless_scheduling.2 [((0 : ℚ), [0, 0])] ⟨0, []⟩ hga).1⟩


end Hypermind
